import Mathlib

/-!
Verification of the ingestion-and-retrieval pipeline of the `ychackathon`
backend (`backend/pdf_processor.py`, `backend/server.py`).

The Python source is shallowly embedded: strings become `List Char`,
Python `str.strip()` becomes `pstrip`, the `while` loop of
`TextChunker.chunk_text` becomes the fuel-indexed `chunkTextAux`
(`none` = the loop did not finish within the given number of
iterations), batched network/database calls are parametrised by the
behaviour of the external service, and module-level initialisation of
`server.py` is embedded as a name-resolution computation over the
names actually defined by `pdf_processor.py`.
-/

set_option maxRecDepth 40000

/-- Whitespace test on characters; embeds the character class stripped by
Python `str.strip()`. -/
def isWS (c : Char) : Bool := c.isWhitespace

/-- Embedding of Python `s.strip()`: drop leading and trailing whitespace,
keeping interior whitespace. -/
def pstrip (l : List Char) : List Char :=
  ((l.dropWhile isWS).reverse.dropWhile isWS).reverse

/-- One chunk record as built by `TextChunker.chunk_text`
(`pdf_processor.py`, lines 78-84). -/
structure Chunk where
  text : List Char
  page_number : Nat
  chunk_index : Nat
  char_start : Nat
  char_end : Nat
deriving DecidableEq, Repr

/-- Python slice `text[start : start + cs]`. -/
def window (text : List Char) (start cs : Nat) : List Char :=
  (text.drop start).take cs

/-- Fuel-indexed embedding of the `while start < len(text)` loop of
`TextChunker.chunk_text` (`pdf_processor.py`, lines 72-87).  Each
iteration takes the window `text[start : start + chunk_size]`, emits a
chunk record exactly when the stripped window is longer than 50
characters, and advances `start` by `chunk_size - overlap`.  `none`
means the loop did not terminate within `fuel` iterations. -/
def chunkTextAux (cs ov : Nat) (text : List Char) (page : Nat) :
    Nat → Nat → Nat → Option (List Chunk)
  | 0, start, _ => if start < text.length then none else some []
  | fuel + 1, start, ci =>
    if start < text.length then
      let w := window text start cs
      if 50 < (pstrip w).length then
        match chunkTextAux cs ov text page fuel (start + (cs - ov)) (ci + 1) with
        | none => none
        | some rest => some (⟨w, page, ci, start, start + cs⟩ :: rest)
      else
        chunkTextAux cs ov text page fuel (start + (cs - ov)) ci
    else some []

/-- Embedding of `TextChunker.chunk_text(text, page_number)`: run the chunking loop from
`start = 0`, `chunk_index = 0`.  `text.length` iterations always suffice
when `overlap < chunk_size`. -/
def chunk_text (cs ov : Nat) (text : List Char) (page : Nat) : List Chunk :=
  (chunkTextAux cs ov text page text.length 0 0).getD []

/-- The chunking loop reaches `start >= len(text)` within some finite
number of iterations. -/
def TerminatesChunk (cs ov : Nat) (text : List Char) : Prop :=
  ∃ fuel, (chunkTextAux cs ov text 1 fuel 0 0).isSome

/-- A set of chunk ranges covers every position of `[0, n)`. -/
def Covers (chunks : List Chunk) (n : Nat) : Prop :=
  ∀ j, j < n → ∃ c ∈ chunks, c.char_start ≤ j ∧ j < c.char_end

instance (chunks : List Chunk) (n : Nat) : Decidable (Covers chunks n) := by
  unfold Covers
  infer_instance

/-- An infix whose head fails `p` survives `dropWhile p`. -/
theorem infix_dropWhile_of_head {α : Type} {p : α → Bool} :
    ∀ {v u : List α}, u <:+: v → (h : u ≠ []) → p (u.head h) = false →
      u <:+: v.dropWhile p := by
  intro v
  induction v with
  | nil =>
    intro u hu h _
    rw [List.infix_nil] at hu
    exact absurd hu h
  | cons a w ih =>
    intro u hu h hp
    rw [List.dropWhile_cons]
    cases hpa : p a with
    | false => simpa [hpa] using hu
    | true =>
      simp only [hpa, if_true]
      rcases List.infix_cons_iff.mp hu with hpre | hinf
      · cases u with
        | nil => exact absurd rfl h
        | cons b u' =>
          obtain ⟨hb, -⟩ := List.cons_prefix_cons.mp hpre
          rw [List.head_cons, hb, hpa] at hp
          exact absurd hp (by simp)
      · exact ih hinf h hp

/-- An infix with non-whitespace endpoints is an infix of the stripped list. -/
theorem infix_pstrip_of_ends {u v : List Char} (hu : u <:+: v) (h : u ≠ [])
    (hh : isWS (u.head h) = false) (hl : isWS (u.getLast h) = false) :
    u <:+: pstrip v := by
  have h1 : u <:+: v.dropWhile isWS := infix_dropWhile_of_head hu h hh
  have h2 : u.reverse <:+: (v.dropWhile isWS).reverse := List.reverse_infix.mpr h1
  have hr : u.reverse ≠ [] := by simpa using h
  have hh2 : isWS (u.reverse.head hr) = false := by
    rw [List.head_reverse]
    exact hl
  have h3 : u.reverse <:+: ((v.dropWhile isWS).reverse).dropWhile isWS :=
    infix_dropWhile_of_head h2 hr hh2
  have h4 := List.reverse_infix.mpr h3
  simpa [pstrip] using h4

/-- Stripping produces an infix of the original list. -/
theorem pstrip_infix_self (v : List Char) : pstrip v <:+: v := by
  have h2 : ((v.dropWhile isWS).reverse.dropWhile isWS) <:+ (v.dropWhile isWS).reverse :=
    List.dropWhile_suffix _
  have h3 : pstrip v <+: v.dropWhile isWS := by
    rw [← List.reverse_suffix]
    simpa [pstrip] using h2
  exact h3.isInfix.trans (List.dropWhile_suffix _).isInfix

/-- The last character of a non-empty stripped list is not whitespace. -/
theorem pstrip_getLast_not_ws {v : List Char} (h : pstrip v ≠ []) :
    isWS ((pstrip v).getLast h) = false := by
  unfold pstrip at h ⊢
  rw [List.getLast_reverse]
  exact List.head_dropWhile_not isWS _ _

/-- The first character of a non-empty stripped list is not whitespace. -/
theorem pstrip_head_not_ws {v : List Char} (h : pstrip v ≠ []) :
    isWS ((pstrip v).head h) = false := by
  have hwne : (v.dropWhile isWS).reverse.dropWhile isWS ≠ [] := by
    intro hnil
    apply h
    show ((v.dropWhile isWS).reverse.dropWhile isWS).reverse = []
    rw [hnil]
    rfl
  have h1 : (pstrip v).head h =
      ((v.dropWhile isWS).reverse.dropWhile isWS).getLast hwne :=
    List.head_reverse _
  obtain ⟨t, ht⟩ :=
    (List.dropWhile_suffix (l := (v.dropWhile isWS).reverse) isWS)
  have hmne : (v.dropWhile isWS).reverse ≠ [] := by
    rw [← ht]
    simp [hwne]
  have h2 : ((v.dropWhile isWS).reverse.dropWhile isWS).getLast hwne =
      ((v.dropWhile isWS).reverse).getLast hmne := by
    have h2' : ((v.dropWhile isWS).reverse.dropWhile isWS).getLast? =
        ((v.dropWhile isWS).reverse).getLast? := by
      conv_rhs => rw [← ht]
      exact (List.getLast?_append_of_ne_nil t hwne).symm
    rw [List.getLast?_eq_getLast _ hwne, List.getLast?_eq_getLast _ hmne] at h2'
    exact Option.some.inj h2'
  rw [h1, h2, List.getLast_reverse]
  exact List.head_dropWhile_not isWS v _

/-- Stripping an infix never yields more characters than stripping the
whole list. -/
theorem pstrip_length_le_within {u v : List Char} (h : u <:+: v) :
    (pstrip u).length ≤ (pstrip v).length := by
  by_cases hn : pstrip u = []
  · simp [hn]
  · have h1 : pstrip u <:+: v := (pstrip_infix_self u).trans h
    have h2 : pstrip u <:+: pstrip v :=
      infix_pstrip_of_ends h1 hn (pstrip_head_not_ws hn) (pstrip_getLast_not_ws hn)
    exact h2.length_le

/-- A window of a text is an infix of the text. -/
theorem window_within_text (text : List Char) (start cs : Nat) :
    window text start cs <:+: text := by
  have h1 : window text start cs <+: text.drop start :=
    ⟨(text.drop start).drop cs, List.take_append_drop _ _⟩
  exact h1.isInfix.trans (List.drop_suffix start text).isInfix

/-- With a positive stride (`overlap < chunk_size`), `text.length - start`
iterations of fuel always suffice for the chunking loop to finish. -/
theorem chunkTextAux_isSome (cs ov : Nat) (hov : ov < cs) (text : List Char) (page : Nat) :
    ∀ fuel start ci, text.length - start ≤ fuel →
      (chunkTextAux cs ov text page fuel start ci).isSome := by
  intro fuel
  induction fuel with
  | zero =>
    intro start ci hle
    have hns : ¬ start < text.length := by omega
    simp [chunkTextAux, hns]
  | succ f ih =>
    intro start ci hle
    by_cases hs : start < text.length
    · have hrec1 := ih (start + (cs - ov)) (ci + 1) (by omega)
      have hrec2 := ih (start + (cs - ov)) ci (by omega)
      simp only [chunkTextAux, hs, if_true]
      by_cases hw : 50 < (pstrip (window text start cs)).length
      · simp only [hw, if_true]
        obtain ⟨l, hl⟩ := Option.isSome_iff_exists.mp hrec1
        rw [hl]
        rfl
      · simpa [hw] using hrec2
    · simp [chunkTextAux, hs]

/-- Every chunk the loop emits has stripped text longer than 50 characters. -/
theorem chunkTextAux_min_content (cs ov : Nat) (text : List Char) (page : Nat) :
    ∀ fuel start ci l, chunkTextAux cs ov text page fuel start ci = some l →
      ∀ c ∈ l, 50 < (pstrip c.text).length := by
  intro fuel
  induction fuel with
  | zero =>
    intro start ci l hl c hc
    by_cases hs : start < text.length
    · simp [chunkTextAux, hs] at hl
    · simp [chunkTextAux, hs] at hl
      rw [hl] at hc
      simp at hc
  | succ f ih =>
    intro start ci l hl c hc
    by_cases hs : start < text.length
    · by_cases hw : 50 < (pstrip (window text start cs)).length
      · simp only [chunkTextAux, hs, if_true, hw] at hl
        cases hrec : chunkTextAux cs ov text page f (start + (cs - ov)) (ci + 1) with
        | none =>
          rw [hrec] at hl
          simp at hl
        | some rest =>
          rw [hrec] at hl
          simp only [Option.some.injEq] at hl
          rw [← hl] at hc
          rcases List.mem_cons.mp hc with hceq | hcr
          · rw [hceq]
            exact hw
          · exact ih _ _ _ hrec c hcr
      · simp only [chunkTextAux, hs, if_true, hw, if_false] at hl
        exact ih _ _ _ hl c hc
    · simp [chunkTextAux, hs] at hl
      rw [hl] at hc
      simp at hc

/-- A text with fewer than 50 stripped characters yields no chunks, and the
loop still terminates normally: every window fails the minimum-content
test. -/
theorem chunkTextAux_short (cs ov : Nat) (hov : ov < cs) (text : List Char) (page : Nat)
    (hshort : (pstrip text).length < 50) :
    ∀ fuel start ci, text.length - start ≤ fuel →
      chunkTextAux cs ov text page fuel start ci = some [] := by
  intro fuel
  induction fuel with
  | zero =>
    intro start ci hle
    have hns : ¬ start < text.length := by omega
    simp [chunkTextAux, hns]
  | succ f ih =>
    intro start ci hle
    by_cases hs : start < text.length
    · have hwle : (pstrip (window text start cs)).length ≤ (pstrip text).length :=
        pstrip_length_le_within (window_within_text text start cs)
      have hw : ¬ 50 < (pstrip (window text start cs)).length := by omega
      simp only [chunkTextAux, hs, if_true, hw, if_false]
      exact ih _ _ (by omega)
    · simp [chunkTextAux, hs]

/-- Positive-stride run of the loop from `start = 0` returns `some`. -/
theorem chunk_text_eq_aux (cs ov : Nat) (hov : ov < cs) (text : List Char) (page : Nat) :
    ∃ l, chunkTextAux cs ov text page text.length 0 0 = some l ∧
      chunk_text cs ov text page = l := by
  have h := chunkTextAux_isSome cs ov hov text page text.length 0 0 (by omega)
  obtain ⟨l, hl⟩ := Option.isSome_iff_exists.mp h
  exact ⟨l, hl, by simp [chunk_text, hl]⟩

/-- When every window at the offsets the loop actually visits passes the
minimum-content test, the i-th emitted chunk sits at offset
`start + i * (chunk_size - overlap)` with recorded end one `chunk_size`
further, and carries consecutive chunk indices. -/
theorem chunkTextAux_get (cs ov : Nat) (text : List Char) (page : Nat) :
    ∀ fuel start ci,
      (∀ k, start + k * (cs - ov) < text.length →
        50 < (pstrip (window text (start + k * (cs - ov)) cs)).length) →
      ∀ l, chunkTextAux cs ov text page fuel start ci = some l →
      ∀ i (hi : i < l.length),
        l.get ⟨i, hi⟩ = ⟨window text (start + i * (cs - ov)) cs, page, ci + i,
          start + i * (cs - ov), start + i * (cs - ov) + cs⟩ := by
  intro fuel
  induction fuel with
  | zero =>
    intro start ci hp l hl i hi
    by_cases hs : start < text.length
    · simp [chunkTextAux, hs] at hl
    · simp [chunkTextAux, hs] at hl
      rw [hl] at hi
      simp at hi
  | succ f ih =>
    intro start ci hp l hl i hi
    by_cases hs : start < text.length
    · have hw : 50 < (pstrip (window text start cs)).length := by
        have h0 := hp 0 (by simpa using hs)
        simpa using h0
      simp only [chunkTextAux, hs, if_true, hw] at hl
      cases hrec : chunkTextAux cs ov text page f (start + (cs - ov)) (ci + 1) with
      | none =>
        rw [hrec] at hl
        simp at hl
      | some rest =>
        rw [hrec] at hl
        simp only [Option.some.injEq] at hl
        have hp' : ∀ k, (start + (cs - ov)) + k * (cs - ov) < text.length →
            50 < (pstrip (window text ((start + (cs - ov)) + k * (cs - ov)) cs)).length := by
          intro k hk
          have e : (start + (cs - ov)) + k * (cs - ov) = start + (k + 1) * (cs - ov) := by
            ring
          rw [e] at hk ⊢
          exact hp (k + 1) hk
        have hrest := ih (start + (cs - ov)) (ci + 1) hp' rest hrec
        subst hl
        cases i with
        | zero =>
          simp
        | succ i' =>
          have hi' : i' < rest.length := by
            simpa using hi
          have hr := hrest i' hi'
          have e1 : start + (i' + 1) * (cs - ov) = (start + (cs - ov)) + i' * (cs - ov) := by
            ring
          have e2 : ci + (i' + 1) = (ci + 1) + i' := by
            ring
          rw [List.get_cons_succ]
          rw [e1, e2]
          exact hr
    · simp [chunkTextAux, hs] at hl
      rw [hl] at hi
      simp at hi

/-- When every window the loop visits passes the minimum-content test, the
emitted ranges cover every position from `start` to the end of the text. -/
theorem chunkTextAux_covers (cs ov : Nat) (hov : ov < cs) (text : List Char) (page : Nat) :
    ∀ fuel start ci,
      (∀ k, start + k * (cs - ov) < text.length →
        50 < (pstrip (window text (start + k * (cs - ov)) cs)).length) →
      ∀ l, chunkTextAux cs ov text page fuel start ci = some l →
      ∀ j, start ≤ j → j < text.length →
        ∃ c ∈ l, c.char_start ≤ j ∧ j < c.char_end := by
  intro fuel
  induction fuel with
  | zero =>
    intro start ci hp l hl j hj1 hj2
    have hs : start < text.length := by omega
    simp [chunkTextAux, hs] at hl
  | succ f ih =>
    intro start ci hp l hl j hj1 hj2
    have hs : start < text.length := by omega
    have hw : 50 < (pstrip (window text start cs)).length := by
      have h0 := hp 0 (by simpa using hs)
      simpa using h0
    simp only [chunkTextAux, hs, if_true, hw] at hl
    cases hrec : chunkTextAux cs ov text page f (start + (cs - ov)) (ci + 1) with
    | none =>
      rw [hrec] at hl
      simp at hl
    | some rest =>
      rw [hrec] at hl
      simp only [Option.some.injEq] at hl
      have hp' : ∀ k, (start + (cs - ov)) + k * (cs - ov) < text.length →
          50 < (pstrip (window text ((start + (cs - ov)) + k * (cs - ov)) cs)).length := by
        intro k hk
        have e : (start + (cs - ov)) + k * (cs - ov) = start + (k + 1) * (cs - ov) := by
          ring
        rw [e] at hk ⊢
        exact hp (k + 1) hk
      subst hl
      by_cases hjc : j < start + cs
      · exact ⟨_, List.mem_cons_self _ _, hj1, hjc⟩
      · obtain ⟨c, hc, h1, h2⟩ :=
          ih (start + (cs - ov)) (ci + 1) hp' rest hrec j (by omega) hj2
        exact ⟨c, List.mem_cons_of_mem _ hc, h1, h2⟩

/-- Embedding of the Python batching loop
`for i in range(0, len(texts), batch_size)`: split a list into the
consecutive slices `texts[i : i + bs]`.  Fuel-indexed by the list length,
which suffices because every step consumes at least the head element. -/
def toBatchesAux {α : Type} (bs : Nat) : Nat → List α → List (List α)
  | _, [] => []
  | 0, _ :: _ => []
  | fuel + 1, x :: xs => (x :: xs.take (bs - 1)) :: toBatchesAux bs fuel (xs.drop (bs - 1))

/-- Split a list into consecutive batches of at most `bs` elements. -/
def toBatches {α : Type} (bs : Nat) (l : List α) : List (List α) :=
  toBatchesAux bs l.length l

/-- Python `sorted(response.data, key=lambda x: x.index)` as used by
`EmbeddingGenerator.generate_embeddings` (`pdf_processor.py`, line 121):
sort index-tagged embedding items by their batch-local index. -/
def sortByIndex {E : Type} (l : List (Nat × E)) : List (Nat × E) :=
  List.insertionSort (fun a b => a.1 ≤ b.1) l

/-- Embedding of `EmbeddingGenerator.generate_embeddings(texts, batch_size)`
(`pdf_processor.py`, lines 104-130): partition `texts` into batches of at
most `batch_size`, call the embedding service once per batch, sort each
response by the per-item index the service returns, and concatenate the
embeddings in order.  The external service is abstracted as a function
returning index-tagged embeddings for a batch, in an arbitrary order. -/
def generate_embeddings {E : Type} (service : List String → List (Nat × E))
    (texts : List String) (batch_size : Nat) : List E :=
  ((toBatches batch_size texts).map
    (fun b => (sortByIndex (service b)).map Prod.snd)).flatten

/-- One row of the `pdf_chunks` table as built by
`SupabaseRAGStorage.insert_chunks` (`pdf_processor.py`, lines 222-236). -/
structure Row (E : Type) where
  document_id : String
  page_number : Nat
  chunk_index : Nat
  chunk_text : List Char
  embedding : E
  char_start : Nat
  char_end : Nat
  text_length : Nat
deriving DecidableEq, Repr

/-- Row construction of `insert_chunks` from one (chunk, embedding) pair. -/
def mkRow {E : Type} (docId : String) (c : Chunk) (e : E) : Row E :=
  ⟨docId, c.page_number, c.chunk_index, c.text, e, c.char_start, c.char_end, c.text.length⟩

/-- Embedding of the per-batch insert loop of `insert_chunks`
(`pdf_processor.py`, lines 242-249).  `ok k` says whether the k-th
database insert succeeds.  Returns the final table contents together with
either the inserted-row count or the surfaced error; rows of batches
written before a failing batch stay persisted. -/
def writeBatches {E : Type} (ok : Nat → Bool) :
    Nat → List (Row E) → List (List (Row E)) → List (Row E) × Except Unit Nat
  | _, st, [] => (st, Except.ok 0)
  | k, st, b :: bs =>
    if ok k then
      match writeBatches ok (k + 1) (st ++ b) bs with
      | (st', Except.ok n) => (st', Except.ok (b.length + n))
      | (st', Except.error e) => (st', Except.error e)
    else (st, Except.error ())

/-- Embedding of `SupabaseRAGStorage.insert_chunks(document_id, chunks, embeddings)`
(`pdf_processor.py`, lines 216-253): build one row per (chunk, embedding)
pair and insert the rows in batches of 50. -/
def insert_chunks {E : Type} (ok : Nat → Bool) (st : List (Row E)) (docId : String)
    (chunks : List Chunk) (embeddings : List E) : List (Row E) × Except Unit Nat :=
  writeBatches ok 0 st (toBatches 50 (List.zipWith (mkRow docId) chunks embeddings))

/-- One chunk row with its similarity score to the fixed query under
consideration. -/
structure ScoredChunk (α : Type) where
  chunk_text : List Char
  similarity : α
deriving DecidableEq, Repr

/-- Modelled from the spec: the database-side `match_pdf_chunks` function
invoked over RPC by `SupabaseRAGStorage.similarity_search` is not part of
the repository's Python sources; per the spec it keeps the rows whose
similarity is at least the threshold, ranks them by similarity descending
with ties broken by insertion order, and caps the result at `limit`
rows. -/
def match_pdf_chunks {α : Type} [LinearOrder α] (rows : List (ScoredChunk α))
    (threshold : α) (limit : Nat) : List (ScoredChunk α) :=
  ((rows.filter (fun r => decide (threshold ≤ r.similarity))).insertionSort
    (fun a b => b.similarity ≤ a.similarity)).take limit

/-- Embedding of `SupabaseRAGStorage.similarity_search(query_embedding, limit, threshold)`
(`pdf_processor.py`, lines 255-283): delegate to `match_pdf_chunks`.  The
fixed query embedding is abstracted into the per-row similarity scores. -/
def similarity_search {α : Type} [LinearOrder α] (rows : List (ScoredChunk α))
    (limit : Nat) (threshold : α) : List (ScoredChunk α) :=
  match_pdf_chunks rows threshold limit

/-- A `pdf_canvas_links` row: the mapping from one canvas shape to a
stored document. -/
structure CanvasLink where
  shape_id : String
  document_id : String
  room_id : Option String
deriving DecidableEq, Repr

/-- Modelled from the spec: `storage.upsert_pdf_canvas_link` is called by
the `/api/pdf/canvas-link` endpoint of `server.py` but is absent from
`pdf_processor.py`; per the spec it is an idempotent upsert keyed by
shape id — re-linking overwrites the existing link rather than adding a
second one. -/
def upsert_pdf_canvas_link (links : List CanvasLink) (sid did : String)
    (rid : Option String) : List CanvasLink :=
  if links.any (fun l => decide (l.shape_id = sid)) then
    links.map (fun l => if l.shape_id = sid then ⟨sid, did, rid⟩ else l)
  else
    links ++ [⟨sid, did, rid⟩]

/-- Embedding of the `/api/pdf/canvas-link` endpoint (`server.py`, lines
340-361): validate that the document exists, then upsert the link; a
missing document is surfaced as a 404 error. -/
def canvasLinkEndpoint (docs : List String) (links : List CanvasLink)
    (sid did : String) (rid : Option String) : Except Nat (List CanvasLink) :=
  if did ∈ docs then Except.ok (upsert_pdf_canvas_link links sid did rid)
  else Except.error 404

/-- Status of a handwriting note row. -/
inductive NoteStatus where
  | processing
  | completed
  | failed
deriving DecidableEq, Repr

/-- A `handwriting_notes` row as inserted by the upload endpoint. -/
structure HandwritingNote where
  frame_id : String
  storage_path : String
  room_id : String
  group_id : Option String
  status : NoteStatus
deriving DecidableEq, Repr

/-- Server-side state seen by the handwriting upload endpoint: stored note
rows, stored note chunks, the queue of pending background tasks, and the
id counter for fresh rows. -/
structure ServerState where
  notes : List (Nat × HandwritingNote)
  noteChunks : List (Nat × Chunk)
  tasks : List Nat
  nextId : Nat
deriving DecidableEq, Repr

/-- Modelled from the spec: `storage.insert_handwriting_note` is called by
`server.py` but absent from `pdf_processor.py`; per the spec it creates
the note row with the given status and returns the fresh note id. -/
def insert_handwriting_note (st : ServerState) (note : HandwritingNote) :
    Nat × ServerState :=
  (st.nextId,
    { st with notes := st.notes ++ [(st.nextId, note)], nextId := st.nextId + 1 })

/-- Response payload of the handwriting upload endpoint. -/
structure UploadResponse where
  success : Bool
  note_id : Nat
  frameId : String
  status : String
deriving DecidableEq, Repr

/-- Embedding of the `/api/handwriting-upload` endpoint (`server.py`, lines
436-523): validate content type and non-empty image bytes, store the
image, insert the note row with status `processing`, queue
`handwriting_processor.process_note` for the note as a background task,
and return immediately with the note id and status `processing`.  The
queued task is recorded in the state, not run. -/
def upload_handwriting_image (st : ServerState) (content_type : String)
    (image_bytes : List Nat) (frame_id : String) (room_id : String)
    (group_id : Option String) : Except Nat (UploadResponse × ServerState) :=
  if content_type ∉ (["image/png", "image/jpeg", "image/jpg"] : List String) then
    Except.error 400
  else if image_bytes = [] then
    Except.error 400
  else
    let p := insert_handwriting_note st
      ⟨frame_id, frame_id ++ ".png", room_id, group_id, NoteStatus.processing⟩
    Except.ok (⟨true, p.1, frame_id, "processing"⟩,
      { p.2 with tasks := p.2.tasks ++ [p.1] })

/-- Module attributes defined by `pdf_processor.py`: its top-level imports
and the five classes it declares. -/
def pdfProcessorModuleNames : List String :=
  ["os", "uuid", "List", "Dict", "Optional", "datetime", "timezone",
   "pdfplumber", "OpenAI", "create_client", "Client", "logging", "logger",
   "PDFExtractor", "TextChunker", "EmbeddingGenerator", "SupabaseRAGStorage",
   "PDFProcessor"]

/-- Names `server.py` imports from `pdf_processor` (lines 27-32). -/
def serverPdfImports : List String :=
  ["PDFProcessor", "EmbeddingGenerator", "SupabaseRAGStorage", "HandwritingProcessor"]

/-- Python `from module import a, b, ...`: the first name the module does
not define raises `ImportError` naming it. -/
def resolveImports (exports : List String) : List String → Except String Unit
  | [] => Except.ok ()
  | n :: ns => if n ∈ exports then resolveImports exports ns else Except.error n

/-- Parameters accepted by `PDFProcessor.__init__`
(`pdf_processor.py`, line 289), besides `self`. -/
def pdfProcessorInitParams : List String :=
  ["supabase_url", "supabase_key", "openai_key"]

/-- Keyword arguments passed at the module-level `PDFProcessor(...)`
construction in `server.py` (line 272), beyond the three positional
arguments. -/
def serverPdfProcessorKwargs : List String :=
  ["openai_base_url"]

/-- Python call semantics: an unexpected keyword argument raises
`TypeError` naming it. -/
def checkCallKwargs (params : List String) : List String → Except String Unit
  | [] => Except.ok ()
  | n :: ns => if n ∈ params then checkCallKwargs params ns else Except.error n

/-- Module-level initialisation of `server.py`: resolve the
`from pdf_processor import ...` statement (lines 27-32), then construct
the module-level `PDFProcessor` instance (line 272).  Either failure
aborts the module load before any route is registered. -/
def serverModuleInit : Except String Unit := do
  resolveImports pdfProcessorModuleNames serverPdfImports
  checkCallKwargs pdfProcessorInitParams serverPdfProcessorKwargs

/-- Routes `server.py` would serve; none is registered when module
initialisation fails. -/
def serverEndpoints : List String :=
  match serverModuleInit with
  | Except.error _ => []
  | Except.ok _ =>
      ["/", "/api/health", "/api/video/room", "/api/ask", "/api/pdf/upload",
       "/api/pdf/canvas-link", "/api/pdf/:document_id", "/api/pdf/documents",
       "/api/pdf/search", "/api/handwriting-upload"]

/-- Chunking stage of `PDFProcessor.process_pdf` (`pdf_processor.py`,
lines 309-316): chunk every page with the constructor configuration
`chunk_size=1000, overlap=200` and concatenate in page order. -/
def pageChunks (pages : List (Nat × List Char)) : List Chunk :=
  (pages.map (fun pt => chunk_text 1000 200 pt.2 pt.1)).flatten

/-- Concatenating the batches gives back the original list. -/
theorem toBatchesAux_flatten {α : Type} (bs : Nat) :
    ∀ fuel (l : List α), l.length ≤ fuel → (toBatchesAux bs fuel l).flatten = l := by
  intro fuel
  induction fuel with
  | zero =>
    intro l hl
    cases l with
    | nil => rfl
    | cons x xs => simp at hl
  | succ f ih =>
    intro l hl
    cases l with
    | nil => rfl
    | cons x xs =>
      have hl' : xs.length ≤ f := by
        simp only [List.length_cons] at hl
        omega
      have hrec := ih (xs.drop (bs - 1)) (by simp only [List.length_drop]; omega)
      simp only [toBatchesAux, List.flatten_cons, hrec]
      simp [List.take_append_drop]

/-- Concatenating the batches gives back the original list. -/
theorem toBatches_flatten {α : Type} (bs : Nat) (l : List α) :
    (toBatches bs l).flatten = l :=
  toBatchesAux_flatten bs l.length l (Nat.le_refl _)

/-- Every batch holds at most `bs` elements (for positive `bs`). -/
theorem toBatchesAux_length_le {α : Type} (bs : Nat) (hbs : 1 ≤ bs) :
    ∀ fuel (l : List α) b, b ∈ toBatchesAux bs fuel l → b.length ≤ bs := by
  intro fuel
  induction fuel with
  | zero =>
    intro l b hb
    cases l with
    | nil => simp [toBatchesAux] at hb
    | cons x xs => simp [toBatchesAux] at hb
  | succ f ih =>
    intro l b hb
    cases l with
    | nil => simp [toBatchesAux] at hb
    | cons x xs =>
      simp only [toBatchesAux, List.mem_cons] at hb
      rcases hb with hb | hb
      · rw [hb]
        simp [List.length_take]
        omega
      · exact ih _ _ hb

/-- Every batch holds at most `bs` elements (for positive `bs`). -/
theorem toBatches_length_le {α : Type} (bs : Nat) (hbs : 1 ≤ bs) (l : List α)
    (b : List α) (hb : b ∈ toBatches bs l) : b.length ≤ bs :=
  toBatchesAux_length_le bs hbs l.length l b hb

/-- Sorting a permutation of an enumerated list by index restores the
enumeration: the indices are distinct, so the sorted order is unique. -/
theorem sortByIndex_perm_enum {E : Type} (l : List (Nat × E)) (xs : List E)
    (h : l.Perm xs.enum) : sortByIndex l = xs.enum := by
  haveI : IsTotal (Nat × E) (fun a b => a.1 ≤ b.1) := ⟨fun a b => Nat.le_total a.1 b.1⟩
  haveI : IsTrans (Nat × E) (fun a b => a.1 ≤ b.1) :=
    ⟨fun _ _ _ hab hbc => Nat.le_trans hab hbc⟩
  haveI : IsAntisymm (Nat × E) (fun a b => a.1 < b.1) :=
    ⟨fun a b h1 h2 => absurd (Nat.lt_trans h1 h2) (Nat.lt_irrefl _)⟩
  have hperm : (sortByIndex l).Perm xs.enum :=
    (List.perm_insertionSort _ l).trans h
  have hsorted : List.Sorted (fun a b : Nat × E => a.1 ≤ b.1) (sortByIndex l) :=
    List.sorted_insertionSort _ l
  have hnodup : (List.map Prod.fst (sortByIndex l)).Nodup := by
    have hp2 : (List.map Prod.fst (sortByIndex l)).Perm (List.range xs.length) := by
      have hm := hperm.map Prod.fst
      rwa [List.enum_map_fst] at hm
    exact hp2.nodup_iff.mpr (List.nodup_range _)
  have hpne : List.Pairwise (fun a b : Nat × E => a.1 ≠ b.1) (sortByIndex l) :=
    List.pairwise_map.mp hnodup
  have hlt1 : List.Sorted (fun a b : Nat × E => a.1 < b.1) (sortByIndex l) :=
    (hsorted.and hpne).imp (fun hab => lt_of_le_of_ne hab.1 hab.2)
  have hlt2 : List.Sorted (fun a b : Nat × E => a.1 < b.1) xs.enum := by
    rw [List.Sorted, List.pairwise_iff_get]
    intro i j hij
    rw [List.get_eq_getElem, List.get_eq_getElem, List.getElem_enum, List.getElem_enum]
    simpa using hij
  exact List.eq_of_perm_of_sorted hperm hlt1 hlt2

/-- When every database insert succeeds, all batches are appended in order
and the returned count is the total number of rows. -/
theorem writeBatches_all_ok {E : Type} (ok : Nat → Bool) (hok : ∀ k, ok k = true) :
    ∀ (batches : List (List (Row E))) (k : Nat) (st : List (Row E)),
      writeBatches ok k st batches = (st ++ batches.flatten, Except.ok batches.flatten.length) := by
  intro batches
  induction batches with
  | nil =>
    intro k st
    simp [writeBatches]
  | cons b bs ih =>
    intro k st
    simp only [writeBatches, hok k, if_true, ih (k + 1) (st ++ b)]
    simp

/-- When the `kf`-th insert fails (all earlier ones succeeding), exactly
the first `kf` batches stay persisted and the error is surfaced: nothing
is rolled back. -/
theorem writeBatches_fail {E : Type} (ok : Nat → Bool) :
    ∀ (batches : List (List (Row E))) (k0 kf : Nat) (st : List (Row E)),
      (∀ j, j < kf → ok (k0 + j) = true) → ok (k0 + kf) = false →
      kf < batches.length →
      writeBatches ok k0 st batches =
        (st ++ (batches.take kf).flatten, Except.error ()) := by
  intro batches
  induction batches with
  | nil =>
    intro k0 kf st hprev hfail hlt
    simp at hlt
  | cons b bs ih =>
    intro k0 kf st hprev hfail hlt
    cases kf with
    | zero =>
      have h0 : ok k0 = false := by simpa using hfail
      simp [writeBatches, h0]
    | succ kf' =>
      have h0 : ok k0 = true := by
        have := hprev 0 (Nat.succ_pos _)
        simpa using this
      have hprev' : ∀ j, j < kf' → ok ((k0 + 1) + j) = true := by
        intro j hj
        have e : (k0 + 1) + j = k0 + (j + 1) := by omega
        rw [e]
        exact hprev (j + 1) (by omega)
      have hfail' : ok ((k0 + 1) + kf') = false := by
        have e : (k0 + 1) + kf' = k0 + (kf' + 1) := by omega
        rw [e]
        exact hfail
      have hlt' : kf' < bs.length := by simpa using hlt
      simp only [writeBatches, h0, if_true, ih (k0 + 1) kf' (st ++ b) hprev' hfail' hlt']
      simp

/-- After an upsert with a previously unique (or absent) shape id, exactly
one link for that shape id exists. -/
theorem upsert_countP_eq_one (links : List CanvasLink) (sid did : String)
    (rid : Option String)
    (hcount : links.countP (fun l => decide (l.shape_id = sid)) ≤ 1) :
    (upsert_pdf_canvas_link links sid did rid).countP
      (fun l => decide (l.shape_id = sid)) = 1 := by
  unfold upsert_pdf_canvas_link
  by_cases hany : links.any (fun l => decide (l.shape_id = sid)) = true
  · rw [if_pos hany]
    have hmap : (links.map (fun l => if l.shape_id = sid then
        (⟨sid, did, rid⟩ : CanvasLink) else l)).countP
          (fun l => decide (l.shape_id = sid)) =
        links.countP (fun l => decide (l.shape_id = sid)) := by
      rw [List.countP_map]
      apply List.countP_congr
      intro l _
      by_cases hsl : l.shape_id = sid
      · simp [hsl]
      · simp [hsl]
    rw [hmap]
    have hpos : 0 < links.countP (fun l => decide (l.shape_id = sid)) := by
      rw [List.countP_pos_iff]
      obtain ⟨x, hx, hpx⟩ := List.any_eq_true.mp hany
      exact ⟨x, hx, hpx⟩
    omega
  · rw [if_neg hany]
    have hzero : links.countP (fun l => decide (l.shape_id = sid)) = 0 := by
      rw [List.countP_eq_zero]
      intro a ha
      intro hpa
      exact hany (List.any_eq_true.mpr ⟨a, ha, hpa⟩)
    rw [List.countP_append, hzero]
    simp

/-- After an upsert, every link for the shape id points at the new
document. -/
theorem upsert_doc_of_shape (links : List CanvasLink) (sid did : String)
    (rid : Option String) :
    ∀ l ∈ upsert_pdf_canvas_link links sid did rid,
      l.shape_id = sid → l.document_id = did := by
  unfold upsert_pdf_canvas_link
  by_cases hany : links.any (fun l => decide (l.shape_id = sid)) = true
  · rw [if_pos hany]
    intro l hl hls
    obtain ⟨x, hx, hfx⟩ := List.mem_map.mp hl
    by_cases hsx : x.shape_id = sid
    · rw [if_pos hsx] at hfx
      rw [← hfx]
    · rw [if_neg hsx] at hfx
      rw [← hfx] at hls
      exact absurd hls hsx
  · simp only [hany, if_false]
    intro l hl hls
    rcases List.mem_append.mp hl with hml | hml
    · exfalso
      exact hany (List.any_eq_true.mpr ⟨l, hml, by simpa using hls⟩)
    · simp at hml
      rw [hml]

/-- An upsert with an existing document id keeps every link pointing at an
existing document. -/
theorem upsert_docs_closed (links : List CanvasLink) (sid did : String)
    (rid : Option String) (docs : List String)
    (hdocs : ∀ l ∈ links, l.document_id ∈ docs) (hdid : did ∈ docs) :
    ∀ l ∈ upsert_pdf_canvas_link links sid did rid, l.document_id ∈ docs := by
  unfold upsert_pdf_canvas_link
  by_cases hany : links.any (fun l => decide (l.shape_id = sid)) = true
  · rw [if_pos hany]
    intro l hl
    obtain ⟨x, hx, hfx⟩ := List.mem_map.mp hl
    by_cases hsx : x.shape_id = sid
    · rw [if_pos hsx] at hfx
      rw [← hfx]
      exact hdid
    · rw [if_neg hsx] at hfx
      rw [← hfx]
      exact hdocs x hx
  · rw [if_neg hany]
    intro l hl
    rcases List.mem_append.mp hl with hml | hml
    · exact hdocs l hml
    · simp at hml
      rw [hml]
      exact hdid

/-- C1 (amended): for a configuration with `overlap < chunk_size` and a
text all of whose visited windows (offsets `k * (chunk_size - overlap)`)
pass the 50-character minimum-content filter, the emitted
`[char_start, char_end)` ranges are monotonically non-decreasing in
emission order, their union covers `[0, len(text))`, and every adjacent
pair of emitted ranges overlaps by exactly `overlap` characters.  The
original claim, quantified over every non-empty text, fails: a short text
passes no window filter, so nothing is emitted and nothing is covered. -/
theorem C1_chunk_ranges_amended (cs ov : Nat) (text : List Char) (page : Nat)
    (hov : ov < cs)
    (hp : ∀ k, k * (cs - ov) < text.length →
      50 < (pstrip (window text (k * (cs - ov)) cs)).length) :
    (∀ i j (hi : i < (chunk_text cs ov text page).length)
        (hj : j < (chunk_text cs ov text page).length), i ≤ j →
      ((chunk_text cs ov text page).get ⟨i, hi⟩).char_start ≤
        ((chunk_text cs ov text page).get ⟨j, hj⟩).char_start ∧
      ((chunk_text cs ov text page).get ⟨i, hi⟩).char_end ≤
        ((chunk_text cs ov text page).get ⟨j, hj⟩).char_end) ∧
    Covers (chunk_text cs ov text page) text.length ∧
    (∀ i (hij : i + 1 < (chunk_text cs ov text page).length),
      ((chunk_text cs ov text page).get ⟨i + 1, hij⟩).char_start ≤
        ((chunk_text cs ov text page).get ⟨i, Nat.lt_of_succ_lt hij⟩).char_end ∧
      ((chunk_text cs ov text page).get ⟨i, Nat.lt_of_succ_lt hij⟩).char_end ≤
        ((chunk_text cs ov text page).get ⟨i + 1, hij⟩).char_end ∧
      ((chunk_text cs ov text page).get ⟨i, Nat.lt_of_succ_lt hij⟩).char_end -
        ((chunk_text cs ov text page).get ⟨i + 1, hij⟩).char_start = ov) := by
  obtain ⟨l, haux, heq⟩ := chunk_text_eq_aux cs ov hov text page
  have hp0 : ∀ k, 0 + k * (cs - ov) < text.length →
      50 < (pstrip (window text (0 + k * (cs - ov)) cs)).length := by
    intro k hk
    rw [Nat.zero_add] at hk ⊢
    exact hp k hk
  have hget := chunkTextAux_get cs ov text page text.length 0 0 hp0 l haux
  rw [heq]
  refine ⟨?_, ?_, ?_⟩
  · intro i j hi hj hij
    rw [hget i hi, hget j hj]
    have hmul : i * (cs - ov) ≤ j * (cs - ov) := Nat.mul_le_mul_right _ hij
    constructor
    · show 0 + i * (cs - ov) ≤ 0 + j * (cs - ov)
      omega
    · show 0 + i * (cs - ov) + cs ≤ 0 + j * (cs - ov) + cs
      omega
  · intro jj hjj
    exact chunkTextAux_covers cs ov hov text page text.length 0 0 hp0 l haux jj
      (Nat.zero_le _) hjj
  · intro i hij
    rw [hget (i + 1) hij, hget i (Nat.lt_of_succ_lt hij)]
    have e1 : (i + 1) * (cs - ov) = i * (cs - ov) + (cs - ov) := by ring
    refine ⟨?_, ?_, ?_⟩
    · show 0 + (i + 1) * (cs - ov) ≤ 0 + i * (cs - ov) + cs
      omega
    · show 0 + i * (cs - ov) + cs ≤ 0 + (i + 1) * (cs - ov) + cs
      omega
    · show 0 + i * (cs - ov) + cs - (0 + (i + 1) * (cs - ov)) = ov
      omega

/-- C1 fails as stated: the non-empty two-character text "hi" yields no
chunks under the default configuration `chunk_size=1000, overlap=200`, so
the union of the emitted ranges does not cover `[0, 2)`. -/
theorem C1_chunk_ranges_cex : ¬ Covers (chunk_text 1000 200 ['h', 'i'] 1) 2 := by
  decide

/-- C1 witness: the amended theorem applied to the 1200-character
all-meaningful text, whose two visited windows both pass the filter. -/
theorem C1_chunk_ranges_witness :
    Covers (chunk_text 1000 200 (List.replicate 1200 'a') 1)
      (List.replicate 1200 'a').length :=
  (C1_chunk_ranges_amended 1000 200 (List.replicate 1200 'a') 1 (by decide)
    (by
      intro k hk
      simp only [List.length_replicate] at hk
      have hk2 : k = 0 ∨ k = 1 := by omega
      rcases hk2 with rfl | rfl
      · decide
      · decide)).2.1

instance {e a : Type} [DecidableEq e] [DecidableEq a] : DecidableEq (Except e a) := fun x y =>
  match x, y with
  | Except.ok v, Except.ok w =>
    if h : v = w then isTrue (by rw [h]) else isFalse (fun hc => h (Except.ok.inj hc))
  | Except.error v, Except.error w =>
    if h : v = w then isTrue (by rw [h]) else isFalse (fun hc => h (Except.error.inj hc))
  | Except.ok _, Except.error _ => isFalse (fun hc => Except.noConfusion hc)
  | Except.error _, Except.ok _ => isFalse (fun hc => Except.noConfusion hc)

/-- C2 (amended): for the 2-page example (page 1: 1200 meaningful
characters, page 2: 30 characters) the pipeline emits exactly 2 chunks,
both for page 1, with ranges `[0,1000)` and `[800,1800)` — the recorded
`char_end` is `start + chunk_size`, not clamped to the text length — and
0 chunks for page 2; inserting the chunks returns `chunk_count = 2`. -/
theorem C2_process_pdf_example_amended :
    (pageChunks [(1, List.replicate 1200 'a'), (2, List.replicate 30 'b')]).map
        (fun c => (c.page_number, c.char_start, c.char_end)) =
      [(1, 0, 1000), (1, 800, 1800)] ∧
    chunk_text 1000 200 (List.replicate 30 'b') 2 = [] ∧
    (insert_chunks (fun _ => true) [] "doc"
        (pageChunks [(1, List.replicate 1200 'a'), (2, List.replicate 30 'b')])
        ((pageChunks [(1, List.replicate 1200 'a'), (2, List.replicate 30 'b')]).map
          (fun _ => (0 : Nat)))).2 = Except.ok 2 := by
  refine ⟨by decide, by decide, by decide⟩

/-- C2 fails as stated: the second chunk of the 1200-character page records
the range `[800, 1800)`, not the claimed `[800, 1200)` — `char_end` is
`start + chunk_size` even past the end of the text. -/
theorem C2_process_pdf_example_cex :
    (pageChunks [(1, List.replicate 1200 'a'), (2, List.replicate 30 'b')]).map
        (fun c => (c.char_start, c.char_end)) ≠ [(0, 1000), (800, 1200)] := by
  decide

/-- C3: no emitted chunk has stripped text shorter than 50 characters (the
loop only emits windows whose stripped length exceeds 50), and any text
with fewer than 50 stripped characters yields zero chunks with the loop
terminating normally rather than erroring, for every positive-stride
configuration. -/
theorem C3_min_content (cs ov : Nat) (text : List Char) (page : Nat) :
    (∀ c ∈ chunk_text cs ov text page, ¬ (pstrip c.text).length < 50) ∧
    (ov < cs → (pstrip text).length < 50 →
      chunkTextAux cs ov text page text.length 0 0 = some [] ∧
      chunk_text cs ov text page = []) := by
  constructor
  · intro c hc
    unfold chunk_text at hc
    cases haux : chunkTextAux cs ov text page text.length 0 0 with
    | none =>
      rw [haux] at hc
      simp at hc
    | some l =>
      rw [haux] at hc
      simp only [Option.getD_some] at hc
      have h := chunkTextAux_min_content cs ov text page _ _ _ _ haux c hc
      omega
  · intro hov hshort
    have h := chunkTextAux_short cs ov hov text page hshort text.length 0 0 (by omega)
    exact ⟨h, by simp [chunk_text, h]⟩

/-- C3 witness: the single emitted chunk of a 100-character all-meaningful
text is not short, and a 10-character text yields zero chunks. -/
theorem C3_min_content_witness :
    ¬ (pstrip (⟨List.replicate 100 'a', 1, 0, 0, 100⟩ : Chunk).text).length < 50 ∧
    chunk_text 1000 200 (List.replicate 10 'c') 3 = [] :=
  ⟨(C3_min_content 100 10 (List.replicate 100 'a') 1).1 _ (by decide),
   ((C3_min_content 1000 200 (List.replicate 10 'c') 3).2 (by decide) (by decide)).2⟩

/-- C10 (amended): for every configuration with `overlap < chunk_size` the
chunking loop terminates — `len(text)` iterations of fuel suffice.  The
original claim over every configuration fails: with
`chunk_size = overlap` the loop never advances on a non-empty text. -/
theorem C10_termination_amended (cs ov : Nat) (text : List Char) (hov : ov < cs) :
    TerminatesChunk cs ov text :=
  ⟨text.length, chunkTextAux_isSome cs ov hov text 1 text.length 0 0 (by omega)⟩

/-- C10 fails as stated: with `chunk_size = 1 = overlap` the stride
`chunk_size - overlap` is zero, so on the one-character text "a" the loop
never advances past offset 0 and no amount of fuel completes it. -/
theorem C10_termination_cex : ¬ TerminatesChunk 1 1 ['a'] := by
  rintro ⟨fuel, hf⟩
  have h : ∀ n, chunkTextAux 1 1 ['a'] 1 n 0 0 = none := by
    intro n
    induction n with
    | zero => decide
    | succ m ih =>
      have e : chunkTextAux 1 1 ['a'] 1 (m + 1) 0 0 = chunkTextAux 1 1 ['a'] 1 m 0 0 := by
        show (if 0 < (['a'] : List Char).length then
            if 50 < (pstrip (window ['a'] 0 1)).length then
              match chunkTextAux 1 1 ['a'] 1 m (0 + (1 - 1)) (0 + 1) with
              | none => none
              | some rest => some (⟨window ['a'] 0 1, 1, 0, 0, 0 + 1⟩ :: rest)
            else chunkTextAux 1 1 ['a'] 1 m (0 + (1 - 1)) 0
          else some []) = chunkTextAux 1 1 ['a'] 1 m 0 0
        have hlen : 0 < (['a'] : List Char).length := by decide
        have hcond : ¬ 50 < (pstrip (window ['a'] 0 1)).length := by decide
        rw [if_pos hlen, if_neg hcond]
      rw [e, ih]
  rw [h fuel] at hf
  simp at hf

/-- C10 witness: the amended termination theorem applied to the default
configuration on a concrete text. -/
theorem C10_termination_witness : TerminatesChunk 1000 200 (List.replicate 7 'x') :=
  C10_termination_amended 1000 200 (List.replicate 7 'x') (by decide)

/-- C4: for any positive batch size and any embedding service that returns
each batch's items tagged with batch-local indices in arbitrary order,
`generate_embeddings` returns exactly one embedding per input string, in
input order — results are reassembled by the per-item index. -/
theorem C4_embedding_order {E : Type} (f : String → E)
    (service : List String → List (Nat × E)) (texts : List String)
    (batch_size : Nat) (_hbs : 0 < batch_size)
    (hserve : ∀ b : List String, (service b).Perm ((b.map f).enum)) :
    generate_embeddings service texts batch_size = texts.map f ∧
    (generate_embeddings service texts batch_size).length = texts.length := by
  have hmain : generate_embeddings service texts batch_size = texts.map f := by
    unfold generate_embeddings
    have hbatch : ∀ b : List String,
        (sortByIndex (service b)).map Prod.snd = b.map f := by
      intro b
      rw [sortByIndex_perm_enum _ _ (hserve b), List.enum_map_snd]
    calc ((toBatches batch_size texts).map
            fun b => (sortByIndex (service b)).map Prod.snd).flatten
        = ((toBatches batch_size texts).map fun b => b.map f).flatten :=
          congrArg List.flatten (List.map_congr_left (fun b _ => hbatch b))
      _ = ((toBatches batch_size texts).flatten).map f := (List.map_flatten f _).symm
      _ = texts.map f := by rw [toBatches_flatten]
  exact ⟨hmain, by rw [hmain, List.length_map]⟩

/-- C4 witness: a service that reverses each batch's items still yields the
embeddings in input order, here with batches of size 2 over 4 strings. -/
theorem C4_embedding_order_witness :
    generate_embeddings (fun b => ((b.map String.length).enum).reverse)
      ["ab", "c", "def", "gh"] 2 = [2, 1, 3, 2] :=
  ((C4_embedding_order String.length
      (fun b => ((b.map String.length).enum).reverse)
      ["ab", "c", "def", "gh"] 2 (by decide)
      (fun b => List.reverse_perm _)).1).trans (by decide)

/-- C5: module initialisation of `server.py` always fails before any
endpoint can be served — the `from pdf_processor import ...` statement
names `HandwritingProcessor`, which `pdf_processor.py` does not define,
and even past that the module-level `PDFProcessor(...)` call passes the
keyword argument `openai_base_url`, which `PDFProcessor.__init__` does
not accept — so no route is ever registered. -/
theorem C5_server_init_fails :
    serverModuleInit = Except.error ("HandwritingProcessor") ∧
    "HandwritingProcessor" ∉ pdfProcessorModuleNames ∧
    checkCallKwargs pdfProcessorInitParams serverPdfProcessorKwargs =
      Except.error ("openai_base_url") ∧
    serverEndpoints = [] :=
  ⟨by decide, by decide, by decide, by decide⟩

/-- C6: `insert_chunks` writes its rows in batches of at most 50; when
every insert succeeds it returns the number of rows inserted; and when
the `kf`-th batch insert fails after the earlier ones succeeded, exactly
the rows of the earlier batches stay persisted and the error is raised —
no rollback, i.e. at-least-once write semantics. -/
theorem C6_insert_chunks {E : Type} (ok : Nat → Bool) (st : List (Row E))
    (docId : String) (chunks : List Chunk) (embeddings : List E)
    (rows : List (Row E))
    (hrows : rows = List.zipWith (mkRow docId) chunks embeddings) :
    (∀ b ∈ toBatches 50 rows, b.length ≤ 50) ∧
    ((∀ k, ok k = true) →
      insert_chunks ok st docId chunks embeddings =
        (st ++ rows, Except.ok rows.length)) ∧
    (∀ kf, (∀ j, j < kf → ok j = true) → ok kf = false →
      kf < (toBatches 50 rows).length →
      insert_chunks ok st docId chunks embeddings =
        (st ++ ((toBatches 50 rows).take kf).flatten, Except.error ())) := by
  subst hrows
  refine ⟨fun b hb => toBatches_length_le 50 (by omega) _ b hb, ?_, ?_⟩
  · intro hok
    unfold insert_chunks
    rw [writeBatches_all_ok ok hok]
    rw [toBatches_flatten]
  · intro kf hprev hfail hlt
    unfold insert_chunks
    exact writeBatches_fail ok _ 0 kf st
      (by intro j hj; simpa using hprev j hj) (by simpa using hfail) hlt

/-- C6 witness: with one row, a successful run returns count 1 and the row
appended; a run whose very first batch insert fails persists nothing and
surfaces the error. -/
theorem C6_insert_chunks_witness :
    insert_chunks (fun _ => true) ([] : List (Row Nat)) "doc"
        [⟨['a'], 1, 0, 0, 5⟩] [7] =
      ([mkRow ("doc") ⟨['a'], 1, 0, 0, 5⟩ 7], Except.ok 1) ∧
    insert_chunks (fun _ => false) ([] : List (Row Nat)) "doc"
        [⟨['a'], 1, 0, 0, 5⟩] [7] = ([], Except.error ()) := by
  constructor
  · have h := (C6_insert_chunks (fun _ => true) ([] : List (Row Nat)) "doc"
        [⟨['a'], 1, 0, 0, 5⟩] [7] _ rfl).2.1 (fun _ => rfl)
    simpa using h
  · have h := (C6_insert_chunks (fun _ => false) ([] : List (Row Nat)) "doc"
        [⟨['a'], 1, 0, 0, 5⟩] [7] _ rfl).2.2 0 (by omega) rfl (by decide)
    simpa using h

/-- C7: for a fixed query (abstracted into the per-row similarity scores),
fixed limit, and fixed store contents, raising the threshold never
increases the number of results, and the result count is the number of
rows meeting the threshold capped at `limit` — threshold filtering is
applied before the limit cap. -/
theorem C7_threshold_monotone {A : Type} [LinearOrder A]
    (rows : List (ScoredChunk A)) (limit : Nat) (t1 t2 : A) (h : t1 ≤ t2) :
    (similarity_search rows limit t2).length ≤
      (similarity_search rows limit t1).length ∧
    (similarity_search rows limit t2).length =
      min limit (rows.countP (fun r => decide (t2 ≤ r.similarity))) := by
  have hlen : ∀ t : A, (similarity_search rows limit t).length =
      min limit (rows.countP (fun r => decide (t ≤ r.similarity))) := by
    intro t
    unfold similarity_search match_pdf_chunks
    rw [List.length_take, List.length_insertionSort, ← List.countP_eq_length_filter]
  constructor
  · rw [hlen t1, hlen t2]
    refine min_le_min (le_refl limit) ?_
    refine List.countP_mono_left ?_
    intro r _ hr
    simp only [decide_eq_true_eq] at hr ⊢
    exact le_trans h hr
  · exact hlen t2

/-- C7 witness: over a store with similarities 95 and 50 (scaled), raising
the threshold from 70 to 90 keeps at most as many results, and the count
at threshold 90 is the one qualifying row. -/
theorem C7_threshold_monotone_witness :
    (similarity_search [⟨['x'], (95 : Int)⟩, ⟨['y'], (50 : Int)⟩] 5 (90 : Int)).length ≤
      (similarity_search [⟨['x'], (95 : Int)⟩, ⟨['y'], (50 : Int)⟩] 5 (70 : Int)).length ∧
    (similarity_search [⟨['x'], (95 : Int)⟩, ⟨['y'], (50 : Int)⟩] 5 (90 : Int)).length =
      min 5 ([⟨['x'], (95 : Int)⟩, ⟨['y'], (50 : Int)⟩].countP
        (fun r : ScoredChunk Int => decide ((90 : Int) ≤ r.similarity))) :=
  C7_threshold_monotone [⟨['x'], (95 : Int)⟩, ⟨['y'], (50 : Int)⟩] 5 70 90 (by decide)

/-- C8: with both documents present and at most one existing link for the
shape id, linking the shape to `d1` and then re-linking it to `d2` both
succeed, leave exactly one link for that shape id, that link points at
`d2`, and every stored link still references an existing document. -/
theorem C8_idempotent_linking (docs : List String) (links : List CanvasLink)
    (sid d1 d2 : String) (r1 r2 : Option String)
    (h1 : d1 ∈ docs) (h2 : d2 ∈ docs)
    (hcount : links.countP (fun l => decide (l.shape_id = sid)) ≤ 1)
    (hdocs : ∀ l ∈ links, l.document_id ∈ docs) :
    ∃ links₁ links₂,
      canvasLinkEndpoint docs links sid d1 r1 = Except.ok links₁ ∧
      canvasLinkEndpoint docs links₁ sid d2 r2 = Except.ok links₂ ∧
      links₂.countP (fun l => decide (l.shape_id = sid)) = 1 ∧
      (∀ l ∈ links₂, l.shape_id = sid → l.document_id = d2) ∧
      (∀ l ∈ links₂, l.document_id ∈ docs) := by
  refine ⟨upsert_pdf_canvas_link links sid d1 r1,
    upsert_pdf_canvas_link (upsert_pdf_canvas_link links sid d1 r1) sid d2 r2,
    ?_, ?_, ?_, ?_, ?_⟩
  · unfold canvasLinkEndpoint
    rw [if_pos h1]
  · unfold canvasLinkEndpoint
    rw [if_pos h2]
  · exact upsert_countP_eq_one _ sid d2 r2
      (le_of_eq (upsert_countP_eq_one links sid d1 r1 hcount))
  · exact upsert_doc_of_shape _ sid d2 r2
  · exact upsert_docs_closed _ sid d2 r2 docs
      (upsert_docs_closed links sid d1 r1 docs hdocs h1) h2

/-- C8 witness: on an empty link table with documents "d1" and "d2",
linking shape "s" to "d1" and then to "d2" leaves exactly one link for
"s", pointing at "d2". -/
theorem C8_idempotent_linking_witness :
    ∃ links₁ links₂,
      canvasLinkEndpoint ["d1", "d2"] [] "s" "d1" none = Except.ok links₁ ∧
      canvasLinkEndpoint ["d1", "d2"] links₁ ("s") ("d2") none = Except.ok links₂ ∧
      links₂.countP (fun l => decide (l.shape_id = "s")) = 1 ∧
      (∀ l ∈ links₂, l.shape_id = "s" → l.document_id = "d2") ∧
      (∀ l ∈ links₂, l.document_id ∈ ["d1", "d2"]) :=
  C8_idempotent_linking ["d1", "d2"] [] "s" "d1" "d2" none none
    (by decide) (by decide) (by decide) (by intro l hl; simp at hl)

/-- C9: a handwriting upload with an allowed image content type and
non-empty bytes returns immediately with the fresh note id and status
`processing`, having created the note row with status `processing`; the
OCR pipeline for the note is only queued as a background task — the
stored chunks are untouched by the upload itself. -/
theorem C9_handwriting_upload (st : ServerState) (ct : String)
    (bytes : List Nat) (fid rid : String) (gid : Option String)
    (hct : ct ∈ (["image/png", "image/jpeg", "image/jpg"] : List String))
    (hbytes : bytes ≠ []) :
    ∃ resp st',
      upload_handwriting_image st ct bytes fid rid gid = Except.ok (resp, st') ∧
      resp.status = "processing" ∧
      resp.note_id = st.nextId ∧
      (st.nextId, (⟨fid, fid ++ ".png", rid, gid, NoteStatus.processing⟩ :
        HandwritingNote)) ∈ st'.notes ∧
      st'.tasks = st.tasks ++ [st.nextId] ∧
      st'.noteChunks = st.noteChunks := by
  have hct' : ¬ ct ∉ (["image/png", "image/jpeg", "image/jpg"] : List String) :=
    fun hn => hn hct
  refine ⟨⟨true, st.nextId, fid, "processing"⟩,
    ⟨st.notes ++ [(st.nextId, ⟨fid, fid ++ ".png", rid, gid, NoteStatus.processing⟩)],
      st.noteChunks, st.tasks ++ [st.nextId], st.nextId + 1⟩,
    ?_, rfl, rfl, ?_, rfl, rfl⟩
  · unfold upload_handwriting_image insert_handwriting_note
    rw [if_neg hct', if_neg hbytes]
  · simp

/-- C9 witness: a concrete PNG upload into the empty server state. -/
theorem C9_handwriting_upload_witness :
    ∃ resp st',
      upload_handwriting_image ⟨[], [], [], 0⟩ "image/png" [1] "f1" "room" none =
        Except.ok (resp, st') ∧
      resp.status = "processing" ∧
      resp.note_id = 0 ∧
      (0, (⟨"f1", "f1" ++ ".png", "room", none, NoteStatus.processing⟩ :
        HandwritingNote)) ∈ st'.notes ∧
      st'.tasks = [] ++ [0] ∧
      st'.noteChunks = [] :=
  C9_handwriting_upload ⟨[], [], [], 0⟩ "image/png" [1] "f1" "room" none
    (by decide) (by decide)
